import Mathlib

/-!
# Verification of the Home Health Assistant scheduling core

Shallow embedding of `src/app.py`: the keyword intent classifier
(`detect_intent`), the minimal natural-language time parser
(`parse_natural_time_minimal`), the appointment day-scoped upsert
(`create_or_update_appt`), the day listing (`list_appointments`), the
nearest-neighbor route optimizer (`optimize_route`) and the HTTP handlers
that touch them (`simulate_sms`, `schedule_create`, `schedule_list`,
`schedule_optimize`).

Text is modelled as lists of characters; the Python regexes used by the
source (`YES_RE`, `RESCH_RE`, `TIME_RE` and the two duration patterns) are
modelled as executable scanning functions that reproduce the regex engine's
leftmost-match and greedy/backtracking behavior on ASCII text.  Timestamps
are modelled at minute granularity: an aware local datetime becomes
`day * 1440 + hour * 60 + minute` (the code's `to_epoch`), which preserves
the order and day-bucketing structure the code relies on.
-/

namespace HomeHealth

/-! ## Character-level text utilities (ASCII model of Python `str`) -/

/-- ASCII lower-casing of one character, matching `str.lower()` on ASCII. -/
def lcChar (c : Char) : Char :=
  if 'A' ≤ c ∧ c ≤ 'Z' then Char.ofNat (c.toNat + 32) else c

/-- Model of `text.lower()` as a list of characters. -/
def lowerStr (s : String) : List Char := s.data.map lcChar

/-- Python regex word character `\w` (ASCII fragment): `[A-Za-z0-9_]`. -/
def isWordChar (c : Char) : Bool := c.isAlphanum || c = '_'

/-- Python regex whitespace `\s` (ASCII fragment). -/
def isSpaceChar (c : Char) : Bool :=
  c = ' ' || c = '\t' || c = '\n' || c = '\r' || c = '\x0b' || c = '\x0c'

/-- Word-character test on an optional character (none = outside the text). -/
def isWordOpt : Option Char → Bool
  | none => false
  | some c => isWordChar c

/-- The regex word-boundary `\b` between two adjacent positions. -/
def boundary (l r : Option Char) : Bool := isWordOpt l != isWordOpt r

/-- Numeric value of an ASCII digit. -/
def digitVal (c : Char) : Nat := c.toNat - 48

/-- Plain substring containment, Python's `pat in t`. -/
def occursSub (pat : List Char) : List Char → Bool
  | [] => pat.isEmpty
  | c :: rest => pat.isPrefixOf (c :: rest) || occursSub pat rest

/-- Split a leading run of ASCII digits from the rest of the text. -/
def takeDigits : List Char → List Char × List Char
  | [] => ([], [])
  | c :: rest =>
    if c.isDigit then
      let (run, rest2) := takeDigits rest
      (c :: run, rest2)
    else ([], c :: rest)

/-- Numeric value of a digit run (most significant first). -/
def natOfDigits (l : List Char) : Nat :=
  l.foldl (fun acc c => 10 * acc + digitVal c) 0

/-- Drop a leading run of regex whitespace. -/
def dropSpaces : List Char → List Char
  | [] => []
  | c :: rest => if isSpaceChar c then dropSpaces rest else c :: rest

/-! ## Keyword regexes `YES_RE` and `RESCH_RE`

`YES_RE = \b(yes|yeah|yep|ok|okay|confirm|confirmed|si|sim)\b` and
`RESCH_RE = \b(resched|reschedule|another time|different time|move|change)\b`,
searched with `re.search`: success iff some position carries one of the
alternatives bracketed by word boundaries. -/

/-- One alternative of a keyword regex matches at the current position. -/
def matchKw (prev : Option Char) (cs : List Char) (kw : List Char) : Bool :=
  kw.isPrefixOf cs && !isWordOpt prev && !isWordOpt ((cs.drop kw.length).head?)

/-- Scan for `\b(kw₁|kw₂|...)\b` anywhere in the text (`re.search`). -/
def kwSearchAux (kws : List (List Char)) (prev : Option Char) :
    List Char → Bool
  | [] => false
  | c :: rest =>
    kws.any (matchKw prev (c :: rest)) || kwSearchAux kws (some c) rest

/-- Alternatives of `YES_RE`, in the pattern's order. -/
def confirmKws : List (List Char) :=
  [('y' :: 'e' :: 's' :: []), ('y' :: 'e' :: 'a' :: 'h' :: []), ('y' :: 'e' :: 'p' :: []),
   ('o' :: 'k' :: []), ('o' :: 'k' :: 'a' :: 'y' :: []),
   ('c' :: 'o' :: 'n' :: 'f' :: 'i' :: 'r' :: 'm' :: []),
   ('c' :: 'o' :: 'n' :: 'f' :: 'i' :: 'r' :: 'm' :: 'e' :: 'd' :: []),
   ('s' :: 'i' :: []), ('s' :: 'i' :: 'm' :: [])]

/-- Alternatives of `RESCH_RE`, in the pattern's order. -/
def reschKws : List (List Char) :=
  [('r' :: 'e' :: 's' :: 'c' :: 'h' :: 'e' :: 'd' :: []),
   ('r' :: 'e' :: 's' :: 'c' :: 'h' :: 'e' :: 'd' :: 'u' :: 'l' :: 'e' :: []),
   ('a' :: 'n' :: 'o' :: 't' :: 'h' :: 'e' :: 'r' :: ' ' :: 't' :: 'i' :: 'm' :: 'e' :: []),
   ('d' :: 'i' :: 'f' :: 'f' :: 'e' :: 'r' :: 'e' :: 'n' :: 't' :: ' ' :: 't' :: 'i' :: 'm' :: 'e' :: []),
   ('m' :: 'o' :: 'v' :: 'e' :: []), ('c' :: 'h' :: 'a' :: 'n' :: 'g' :: 'e' :: [])]

/-- `YES_RE.search(t)` succeeded. -/
def yesSearch (t : List Char) : Bool := kwSearchAux confirmKws none t

/-- `RESCH_RE.search(t)` succeeded. -/
def reschSearch (t : List Char) : Bool := kwSearchAux reschKws none t

/-! ## The time regex `TIME_RE`

`TIME_RE = \b(\d{1,2})(?::(\d{2}))?\s*(am|pm)?\b`, applied by `re.search`
after lower-casing.  The functions below reproduce the engine's behavior:
leftmost match position, greedy digit / whitespace consumption with
backtracking, alternative order `am` before `pm`, and the final `\b`. -/

/-- Meridiem group of a `TIME_RE` match. -/
inductive Meridiem where
  | am : Meridiem
  | pm : Meridiem
  deriving DecidableEq, Repr

/-- The capture groups of a `TIME_RE` match: hour digits, optional
minute digits, optional meridiem. -/
structure TimeMatch where
  hour : Nat
  minute : Option Nat
  ap : Option Meridiem
  deriving DecidableEq, Repr

/-- The tail `(am|pm)?\b` of `TIME_RE` at the current position: first try the
literal alternatives (each followed by `\b`), then the empty option. -/
def finishAmPm (prev : Char) (cs : List Char) : Option (Option Meridiem) :=
  (match cs with
   | 'a' :: 'm' :: rest =>
     if boundary (some 'm') rest.head? then some (some Meridiem.am) else none
   | 'p' :: 'm' :: rest =>
     if boundary (some 'm') rest.head? then some (some Meridiem.pm) else none
   | _ => none) <|>
  (if boundary (some prev) cs.head? then some none else none)

/-- The tail `\s*(am|pm)?\b` of `TIME_RE`: greedy whitespace with
backtracking (more whitespace is preferred, as the regex engine does). -/
def restPart (prev : Char) (cs : List Char) : Option (Option Meridiem) :=
  match cs with
  | c :: rest =>
    if isSpaceChar c then restPart c rest <|> finishAmPm prev cs
    else finishAmPm prev cs
  | [] => finishAmPm prev []

/-- The tail `(?::(\d{2}))?\s*(am|pm)?\b` after the hour digits: the colon
group is tried greedily, backtracking to the no-colon branch on failure. -/
def afterHour (prev : Char) (cs : List Char) :
    Option (Option Nat × Option Meridiem) :=
  (match cs with
   | ':' :: a :: b :: rest =>
     if a.isDigit && b.isDigit then
       (restPart b rest).map (fun ap => (some (10 * digitVal a + digitVal b), ap))
     else none
   | _ => none) <|>
  (restPart prev cs).map (fun ap => ((none : Option Nat), ap))

/-- A `TIME_RE` match attempt at a position whose first character `c` is a
digit preceded by a word boundary: `\d{1,2}` greedily prefers two digits,
backtracking to one. -/
def tryTimeAt (c : Char) (rest : List Char) : Option TimeMatch :=
  (match rest with
   | d2 :: rest2 =>
     if d2.isDigit then
       (afterHour d2 rest2).map
         (fun p => ⟨10 * digitVal c + digitVal d2, p.1, p.2⟩)
     else none
   | [] => none) <|>
  (afterHour c rest).map (fun p => ⟨digitVal c, p.1, p.2⟩)

/-- Left-to-right scan of `re.search(TIME_RE, ·)`, tracking the previous
character for the leading word boundary. -/
def timeSearchAux (prev : Option Char) : List Char → Option TimeMatch
  | [] => none
  | c :: rest =>
    (if c.isDigit && boundary prev (some c) then tryTimeAt c rest else none)
      <|> timeSearchAux (some c) rest

/-- `TIME_RE.search(t)`: the groups of the leftmost match, if any. -/
def timeSearch (t : List Char) : Option TimeMatch := timeSearchAux none t

/-! ## The duration regexes

`\b(\d+)\s*(min|mins|minutes)\b` and `\b(\d+(?:\.\d+)?)\s*h(?:ours?)?\b`
(the latter's captured numeral is fed through `float` and scaled; we model
the numeral's value exactly as a rational). -/

/-- The literal tail `(min|mins|minutes)\b` at the current position. -/
def minWordAt (cs : List Char) : Bool :=
  (('m' :: 'i' :: 'n' :: []).isPrefixOf cs && !isWordOpt ((cs.drop 3).head?)) ||
  (('m' :: 'i' :: 'n' :: 's' :: []).isPrefixOf cs && !isWordOpt ((cs.drop 4).head?)) ||
  (('m' :: 'i' :: 'n' :: 'u' :: 't' :: 'e' :: 's' :: []).isPrefixOf cs &&
    !isWordOpt ((cs.drop 7).head?))

/-- `re.search` for the minutes pattern: leftmost `\b\d+\s*(min|mins|minutes)\b`;
returns the integer capture. -/
def minSearchAux (prev : Option Char) : List Char → Option Nat
  | [] => none
  | c :: rest =>
    (if c.isDigit && !isWordOpt prev then
       let p := takeDigits (c :: rest)
       if minWordAt (dropSpaces p.2) then some (natOfDigits p.1) else none
     else none) <|> minSearchAux (some c) rest

/-- First match of the minutes duration pattern in the text. -/
def minSearch (t : List Char) : Option Nat := minSearchAux none t

/-- The literal tail `h(?:ours?)?\b` at the current position. -/
def hourWordAt (cs : List Char) : Bool :=
  match cs with
  | 'h' :: rest =>
    (('o' :: 'u' :: 'r' :: 's' :: []).isPrefixOf rest && !isWordOpt ((rest.drop 4).head?)) ||
    (('o' :: 'u' :: 'r' :: []).isPrefixOf rest && !isWordOpt ((rest.drop 3).head?)) ||
    !isWordOpt rest.head?
  | _ => false

/-- Value of the `\d+(?:\.\d+)?` capture as an exact rational, plus the rest
of the text after it; fails if the optional fraction is present but the
whole position cannot match (mirroring the regex backtracking, under which
a position with `<digits>.<digits>` can only match using the fraction). -/
def fracNumAt (c : Char) (rest : List Char) : ℚ × List Char :=
  let p := takeDigits (c :: rest)
  match p.2 with
  | '.' :: d :: rest2 =>
    if d.isDigit then
      let q := takeDigits (d :: rest2)
      ((natOfDigits p.1 : ℚ) + (natOfDigits q.1 : ℚ) / ((10 : ℚ) ^ q.1.length),
       q.2)
    else ((natOfDigits p.1 : ℚ), p.2)
  | _ => ((natOfDigits p.1 : ℚ), p.2)

/-- `re.search` for the hours pattern `\b(\d+(?:\.\d+)?)\s*h(?:ours?)?\b`;
returns the numeral's exact rational value. -/
def hrsSearchAux (prev : Option Char) : List Char → Option ℚ
  | [] => none
  | c :: rest =>
    (if c.isDigit && !isWordOpt prev then
       let p := fracNumAt c rest
       if hourWordAt (dropSpaces p.2) then some p.1 else none
     else none) <|> hrsSearchAux (some c) rest

/-- First match of the hours duration pattern in the text. -/
def hrsSearch (t : List Char) : Option ℚ := hrsSearchAux none t

/-! ## Intent classifier `detect_intent`

```python
def detect_intent(text: str) -> str:
    t = (text or "").lower()
    if YES_RE.search(t): return "confirm"
    if RESCH_RE.search(t): return "reschedule"
    if TIME_RE.search(t): return "time"
    return "other"
```
`None` input is modelled by `Option String`. -/

def detect_intent (text : Option String) : String :=
  let t := lowerStr (text.getD "")
  if yesSearch t then "confirm"
  else if reschSearch t then "reschedule"
  else if (timeSearch t).isSome then "time"
  else "other"

/-! ## Datetimes

The code works with timezone-aware datetimes in the single fixed deployment
timezone and only ever uses day arithmetic, `date()` projections to local
midnight, and `timestamp()` for storing.  A datetime is modelled as a local
calendar day index together with hour and minute; Python's
`date.weekday()` (Monday = 0) is `day % 7`, so day `0` is a Monday.
`to_epoch` is the strictly monotone minute count `day*1440 + hour*60 + m`,
which preserves comparisons and the local-midnight day brackets used by
`create_or_update_appt` and `list_appointments`. -/

structure DateTime where
  day : Nat
  hour : Nat
  minute : Nat
  deriving DecidableEq, Repr

/-- `dt.timestamp()`, at minute granularity. -/
def to_epoch (d : DateTime) : ℚ := (d.day * 1440 + d.hour * 60 + d.minute : Nat)

/-- `date.weekday()`: Monday = 0. -/
def weekdayOf (day : Nat) : Nat := day % 7

/-- `WEEKDAY_MAP.items()` in the dict's insertion order. -/
def WEEKDAY_MAP : List (List Char × Nat) :=
  [(('m' :: 'o' :: 'n' :: []), 0), (('m' :: 'o' :: 'n' :: 'd' :: 'a' :: 'y' :: []), 0),
   (('t' :: 'u' :: 'e' :: []), 1), (('t' :: 'u' :: 'e' :: 's' :: []), 1),
   (('t' :: 'u' :: 'e' :: 's' :: 'd' :: 'a' :: 'y' :: []), 1),
   (('w' :: 'e' :: 'd' :: []), 2), (('w' :: 'e' :: 'd' :: 's' :: []), 2),
   (('w' :: 'e' :: 'd' :: 'n' :: 'e' :: 's' :: 'd' :: 'a' :: 'y' :: []), 2),
   (('t' :: 'h' :: 'u' :: []), 3), (('t' :: 'h' :: 'u' :: 'r' :: []), 3),
   (('t' :: 'h' :: 'u' :: 'r' :: 's' :: []), 3),
   (('t' :: 'h' :: 'u' :: 'r' :: 's' :: 'd' :: 'a' :: 'y' :: []), 3),
   (('f' :: 'r' :: 'i' :: []), 4), (('f' :: 'r' :: 'i' :: 'd' :: 'a' :: 'y' :: []), 4),
   (('s' :: 'a' :: 't' :: []), 5), (('s' :: 'a' :: 't' :: 'u' :: 'r' :: 'd' :: 'a' :: 'y' :: []), 5),
   (('s' :: 'u' :: 'n' :: []), 6), (('s' :: 'u' :: 'n' :: 'd' :: 'a' :: 'y' :: []), 6)]

/-- The first weekday alias (in `WEEKDAY_MAP` order) occurring in the text. -/
def weekdayFind (t : List Char) : Option (List Char × Nat) :=
  WEEKDAY_MAP.find? (fun kv => occursSub kv.1 t)

/-- The literal `"tomorrow"`. -/
def tomorrowKw : List Char := 't' :: 'o' :: 'm' :: 'o' :: 'r' :: 'r' :: 'o' :: 'w' :: []

/-- The literal `"next"`. -/
def nextKw : List Char := 'n' :: 'e' :: 'x' :: 't' :: []

/-- The target calendar day computed by `parse_natural_time_minimal` from
the lowered text `t` and the reference datetime `base`:
`tomorrow` wins, else the first weekday alias found with
`delta = (idx - base.weekday()) % 7` bumped to 7 when `delta == 0` and the
text contains `next`, else the reference day itself. -/
def targetDayOf (t : List Char) (base : DateTime) : Nat :=
  if occursSub tomorrowKw t then base.day + 1
  else
    match weekdayFind t with
    | some kv =>
      let delta := (kv.2 + 7 - weekdayOf base.day) % 7
      let delta :=
        if delta = 0 ∧ occursSub nextKw t then 7 else delta
      base.day + delta
    | none => base.day

/-- Meridiem normalization of the matched hour:
`pm` adds 12 unless the hour is 12; `am` maps 12 to 0. -/
def normHour (m : TimeMatch) : Nat :=
  if m.ap = some Meridiem.pm ∧ m.hour ≠ 12 then m.hour + 12
  else if m.ap = some Meridiem.am ∧ m.hour = 12 then 0
  else m.hour

/-- The duration block of `parse_natural_time_minimal` (lines 186-191):
default 60, overridden by the minutes pattern, else by the hours pattern
scaled by 60 and truncated toward zero by Python's `int()`. -/
def durationOf (t : List Char) : Nat :=
  match minSearch t with
  | some n => n
  | none =>
    match hrsSearch t with
    | some q => (⌊q * 60⌋).toNat
    | none => 60

/-- `parse_natural_time_minimal(text, base)`; the deployment's
`parse_natural_time` reduces to this fallback when the optional
`dateparser` library is absent. -/
def parse_natural_time_minimal (text : String) (base : DateTime) :
    Option DateTime × Option Nat × String :=
  let t := lowerStr text
  let target_day := targetDayOf t base
  match timeSearch t with
  | none => (none, none, "no_time_found")
  | some m =>
    let hour := normHour m
    let minute := m.minute.getD 0
    if hour ≤ 23 ∧ minute ≤ 59 then
      (some ⟨target_day, hour, minute⟩, some (durationOf t), "ok")
    else (none, none, "invalid_time")

/-! ## SQLite store

Three tables (`messages`, `patients`, `appointments`) become three lists;
`AUTOINCREMENT` primary keys become a `nextApptId` counter (SQLite starts
at 1). -/

/-- An `appointments` row. -/
structure Appt where
  id : Nat
  patient_id : Nat
  therapist : String
  start_ts : ℚ
  duration_min : Nat
  status : String
  source : String
  note : String
  deriving DecidableEq, Repr

/-- A `patients` row (only the fields the modelled handlers read). -/
structure Patient where
  id : Nat
  phone : String
  therapist : Option String
  lat : Option ℚ
  lon : Option ℚ
  deriving DecidableEq, Repr

/-- A `messages` row (as written by `log_message`). -/
structure Msg where
  direction : String
  kind : String
  intent : String
  frm : String
  to_number : String
  body : String
  note : String
  deriving DecidableEq, Repr

/-- The whole SQLite database. -/
structure State where
  messages : List Msg
  patients : List Patient
  appointments : List Appt
  nextApptId : Nat
  deriving DecidableEq, Repr

/-- The empty, freshly initialised database. -/
def State.empty : State := ⟨[], [], [], 1⟩

/-- `log_message`: an `INSERT` into `messages`. -/
def log_message (s : State) (direction body frm toNum intent kind note : String) :
    State :=
  { s with messages :=
      s.messages ++ [⟨direction, kind, intent, frm, toNum, body, note⟩] }

/-- `find_patient_by_phone`: `None` for a falsy phone, else the first
`patients` row with that phone. -/
def find_patient_by_phone (s : State) (phone : String) : Option Patient :=
  if phone = "" then none
  else s.patients.find? (fun p => p.phone == phone)

/-- One step of the latest-row scan: keep the row with the strictly larger
`start_ts` (the earlier row wins ties, like the `DESC LIMIT 1` scan). -/
def latestStep (acc : Option Appt) (r : Appt) : Option Appt :=
  match acc with
  | none => some r
  | some c => if c.start_ts < r.start_ts then some r else acc

/-- `ORDER BY start_ts DESC LIMIT 1` over a candidate list: the first row
attaining the maximal `start_ts`. -/
def pickLatest (l : List Appt) : Option Appt := l.foldl latestStep none

/-- The `SELECT ... WHERE patient_id=? AND start_ts BETWEEN ? AND ?` filter
of `create_or_update_appt`.  SQLite's `BETWEEN` is inclusive at **both**
ends, so the window is the closed interval
`[to_epoch(day_start), to_epoch(day_end)]`. -/
def apptWindowQuery (s : State) (pid : Nat) (lo hi : ℚ) : List Appt :=
  s.appointments.filter
    (fun a => a.patient_id == pid && decide (lo ≤ a.start_ts)
      && decide (a.start_ts ≤ hi))

/-- `create_or_update_appt(patient_id, therapist, start_dt, duration_min,
status, source, note)`: look for a row of that patient between the local
midnight of `start_dt`'s day and the next midnight (`BETWEEN`, inclusive);
update it if found, else insert a fresh row; return the row id. -/
def create_or_update_appt (s : State) (pid : Nat) (ther : String)
    (start_dt : DateTime) (dur : Nat) (status source note : String) :
    State × Nat :=
  let day_start : ℚ := (start_dt.day * 1440 : Nat)
  let day_end : ℚ := ((start_dt.day + 1) * 1440 : Nat)
  match pickLatest (apptWindowQuery s pid day_start day_end) with
  | some row =>
    ({ s with appointments := s.appointments.map (fun a =>
          if a.id == row.id then
            { a with therapist := ther, start_ts := to_epoch start_dt,
                     duration_min := dur, status := status, source := source,
                     note := note }
          else a) },
     row.id)
  | none =>
    ({ s with
        appointments := s.appointments ++
          [⟨s.nextApptId, pid, ther, to_epoch start_dt, dur, status, source,
            note⟩],
        nextApptId := s.nextApptId + 1 },
     s.nextApptId)

/-- A stored appointment's `start_ts` falls on calendar day `d`, i.e. in
the half-open local-midnight bracket `[d*1440, (d+1)*1440)` (a timestamp
belongs to the day it starts, midnight included). -/
def onDay (a : Appt) (d : Nat) : Bool :=
  decide (((d * 1440 : Nat) : ℚ) ≤ a.start_ts) &&
    decide (a.start_ts < (((d + 1) * 1440 : Nat) : ℚ))

/-- `POST /schedule` (`schedule_create`) after its input validation:
a parsed start datetime is upserted with `source="manual"`. -/
def schedule_create (s : State) (pid : Nat) (start_dt : DateTime) (dur : Nat)
    (ther : String) (status note : String) : State × Nat :=
  create_or_update_appt s pid ther start_dt dur status "manual" note

/-! ## Day view and route optimizer

`list_appointments` joins each appointment with its patient row
(`LEFT JOIN`), keeping the per-stop coordinates; `optimize_route` then
greedily reorders the coordinate-bearing stops.  The per-pair score —
Google Distance Matrix minutes when the API key is configured and the call
succeeds, haversine kilometres otherwise — is an opaque numeric function of
the two stops, so the optimizer is parametrised by `dist`; the code's
initial `best_score = 1e9` is the literal `1000000000`. -/

/-- A row of the day view: appointment joined with patient coordinates. -/
structure Row where
  id : Nat
  patient_id : Nat
  therapist : String
  start_ts : ℚ
  lat : Option ℚ
  lon : Option ℚ
  deriving DecidableEq, Repr

/-- `a.get("lat") is not None and a.get("lon") is not None`. -/
def hasCoords (a : Row) : Bool := a.lat.isSome && a.lon.isSome

/-- `LEFT JOIN patients p ON p.id = a.patient_id`, projected to the fields
the optimizer reads. -/
def joinPatient (s : State) (a : Appt) : Row :=
  match s.patients.find? (fun p => p.id == a.patient_id) with
  | some p => ⟨a.id, a.patient_id, a.therapist, a.start_ts, p.lat, p.lon⟩
  | none => ⟨a.id, a.patient_id, a.therapist, a.start_ts, none, none⟩

/-- `list_appointments(day, therapist)`: the day's rows (`BETWEEN` again
inclusive at both ends), optionally filtered by therapist, joined with
patients and ordered by `start_ts` ascending. -/
def list_appointments (s : State) (day : Nat) (ther : Option String) :
    List Row :=
  let lo : ℚ := (day * 1440 : Nat)
  let hi : ℚ := ((day + 1) * 1440 : Nat)
  let rows := s.appointments.filter (fun a =>
    decide (lo ≤ a.start_ts) && decide (a.start_ts ≤ hi) &&
      (match ther with
       | some th => a.therapist == th
       | none => true))
  List.insertionSort (fun a b => a.start_ts ≤ b.start_ts)
    (rows.map (joinPatient s))

/-- `min(pts, key=lambda r: r["start_ts"])`: leftmost row with least
start (`min` keeps the earlier element on ties). -/
def minFirst : List Row → Option Row
  | [] => none
  | a :: rest =>
    some (rest.foldl (fun cur x => if x.start_ts < cur.start_ts then x else cur) a)

/-- The inner `for r in remaining` loop of `optimize_route`: running best
starting from `best = None`, `best_score = 1e9`, updated on strict
improvement, so the result is the leftmost row of minimal score (or `None`
when every score is at least `1e9`). -/
def selectBest (dist : Row → Row → ℚ) (last : Row) (remaining : List Row) :
    Option Row :=
  (remaining.foldl
    (fun acc r =>
      if dist last r < acc.2 then (some r, dist last r) else acc)
    ((none : Option Row), (1000000000 : ℚ))).1

/-- The `while remaining:` loop of `optimize_route`, with fuel
`remaining.length`.  `none` models the `TypeError` the Python code would
raise if no stop scored below `1e9` (appending `None` to the tour). -/
def nnLoop (dist : Row → Row → ℚ) : Nat → Row → List Row → Option (List Row)
  | 0, _, remaining => if remaining.isEmpty then some [] else none
  | fuel + 1, last, remaining =>
    if remaining.isEmpty then some []
    else
      match selectBest dist last remaining with
      | none => none
      | some b => (nnLoop dist fuel b (remaining.erase b)).map (fun l => b :: l)

/-- `{a["id"]: i for i, a in enumerate(ordered)}` followed by
`.get(id, 9999)`: the index of the *last* occurrence of the id in the tour,
defaulting to 9999. -/
def rankAux : List Row → Nat → Nat → Nat → Nat
  | [], _, r, _ => r
  | a :: rest, i, r, idv => rankAux rest (i + 1) (if a.id == idv then i else r) idv

/-- Rank of an id in the constructed tour (9999 when absent). -/
def rankOf (ordered : List Row) (idv : Nat) : Nat := rankAux ordered 0 9999 idv

/-- `sorted(appts, key=lambda r: id_to_order.get(r["id"], 9999))`: Python's
`sorted` is a stable sort by the key, which insertion sort on `key ≤ key`
reproduces exactly. -/
def sortByRank (key : Nat → Nat) (l : List Row) : List Row :=
  List.insertionSort (fun a b => key a.id ≤ key b.id) l

/-- `optimize_route(appts)`: keep the coordinate-bearing rows; fewer than 2
of them returns the input as is; otherwise run the greedy nearest-neighbor
tour from the earliest-starting stop and stably re-sort the whole input by
tour rank. -/
def optimize_route (dist : Row → Row → ℚ) (appts : List Row) :
    Option (List Row) :=
  let pts := appts.filter (fun a => hasCoords a)
  if pts.length < 2 then some appts
  else
    match minFirst pts with
    | none => some appts
    | some h =>
      match nnLoop dist (pts.erase h).length h (pts.erase h) with
      | none => none
      | some rest => some (sortByRank (rankOf (h :: rest)) appts)

/-- `GET /schedule` (`schedule_list`): a pure read of the day view; the
response carries the listed rows. -/
def schedule_list (s : State) (day : Nat) (ther : Option String) :
    State × List Row :=
  (s, list_appointments s day ther)

/-- `POST /schedule/optimize` (`schedule_optimize`): reads the day view and
returns the reordered snapshot. -/
def schedule_optimize (dist : Row → Row → ℚ) (s : State) (day : Nat)
    (ther : Option String) : State × Option (List Row) :=
  (s, optimize_route dist (list_appointments s day ther))

/-! ## `POST /simulate-sms` (`simulate_sms`)

With the optional `dateparser` library absent, `parse_natural_time` is
`parse_natural_time_minimal`; `now` stands for `now_tz()`. -/

/-- The JSON body returned by `simulate_sms`. -/
structure SimResp where
  ok : Bool
  intent : String
  scheduled_for : Option DateTime
  duration_min : Option Nat
  deriving DecidableEq, Repr

/-- `patient.get("therapist") or "therapist"` (`None` and `""` are falsy). -/
def therapistOf (p : Patient) : String :=
  match p.therapist with
  | some t => if t = "" then "therapist" else t
  | none => "therapist"

/-- `dur or 60` (`None` and `0` are falsy). -/
def durOr60 : Option Nat → Nat
  | some d => if d = 0 then 60 else d
  | none => 60

/-- The `simulate_sms` handler: log the inbound message, look up the
patient by phone, parse the body, upsert an appointment when a start time
was parsed, and reply. -/
def simulate_sms (now : DateTime) (s : State) (frm body : String) :
    State × SimResp :=
  let intent := detect_intent (some body)
  let s1 := log_message s "in" body frm "" intent "simulate" "simulate-in"
  let fallback : State × SimResp :=
    if intent = "confirm" then
      (log_message s1 "out" "Thanks! See you at the scheduled time." "" frm
        "other" "simulate" "auto-reply",
       ⟨true, intent, none, none⟩)
    else (s1, ⟨true, intent, none, none⟩)
  match find_patient_by_phone s1 frm with
  | some patient =>
    match parse_natural_time_minimal body now with
    | (some start_dt, dur, _) =>
      let s2 := (create_or_update_appt s1 patient.id (therapistOf patient)
        start_dt (durOr60 dur)
        (if intent = "confirm" then "confirmed" else "pending")
        "inbound" "auto from simulate").1
      let s3 := log_message s2 "out" "Thanks! See you at the scheduled time."
        "" frm "other" "simulate" "auto-reply"
      (s3, ⟨true, intent, some start_dt, some (durOr60 dur)⟩)
    | (none, _, _) => fallback
  | none => fallback

/-! ## Spec-side comparison definitions

Two definitions written from the specification's words (not from the
source), used only to compare the spec's description with the code. -/

/-- Day-scoped upsert as the specification words it: the lookup window is
the half-open interval `[local midnight of start's day, next midnight)`.
Identical to `create_or_update_appt` except for the strict upper bound. -/
def upsert_specHalfOpen (s : State) (pid : Nat) (ther : String)
    (start_dt : DateTime) (dur : Nat) (status source note : String) :
    State × Nat :=
  let day_start : ℚ := (start_dt.day * 1440 : Nat)
  let day_end : ℚ := ((start_dt.day + 1) * 1440 : Nat)
  let window := s.appointments.filter
    (fun a => a.patient_id == pid && decide (day_start ≤ a.start_ts)
      && decide (a.start_ts < day_end))
  match pickLatest window with
  | some row =>
    ({ s with appointments := s.appointments.map (fun a =>
          if a.id == row.id then
            { a with therapist := ther, start_ts := to_epoch start_dt,
                     duration_min := dur, status := status, source := source,
                     note := note }
          else a) },
     row.id)
  | none =>
    ({ s with
        appointments := s.appointments ++
          [⟨s.nextApptId, pid, ther, to_epoch start_dt, dur, status, source,
            note⟩],
        nextApptId := s.nextApptId + 1 },
     s.nextApptId)

/-- Target-day rule as claim C4 words it: with a weekday name present, the
day is the next occurrence of that weekday **strictly after** the reference
day by default (so a delta of 0 already jumps a full week, making the
`next` clause vacuous). -/
def claimTargetDayStrict (t : List Char) (base : DateTime) : Nat :=
  if occursSub tomorrowKw t then base.day + 1
  else
    match weekdayFind t with
    | some kv =>
      let delta := (kv.2 + 7 - weekdayOf base.day) % 7
      base.day + (if delta = 0 then 7 else delta)
    | none => base.day

/-! ## Claim-specific definitions -/

/-- The previous character seen by the scanner once it has consumed `pre`,
having entered `pre` with previous character `prev`. -/
def effPrev (prev : Option Char) (pre : List Char) : Option Char :=
  match pre.getLast? with
  | some c => some c
  | none => prev

/-- The lowered text contains a `YES_RE` alternative delimited by word
boundaries (the notion "text contains a confirm keyword", stated as a
decomposition rather than through the scanner itself). -/
def ContainsConfirmKw (t : String) : Prop :=
  ∃ kw pre post, kw ∈ confirmKws ∧ lowerStr t = pre ++ kw ++ post ∧
    isWordOpt pre.getLast? = false ∧ isWordOpt post.head? = false

/-- An appointment row lies in the **closed** local-midnight window of
calendar day `d` — the window `create_or_update_appt`'s `BETWEEN` actually
queries. -/
def inClosedWindow (a : Appt) (d : Nat) : Prop :=
  ((d * 1440 : Nat) : ℚ) ≤ a.start_ts ∧
    a.start_ts ≤ (((d + 1) * 1440 : Nat) : ℚ)

/-- The store reached from an empty database by three manual
schedule-create upserts for patient 1: 10:00 on day 0, then midnight of
day 1, then 14:00 on day 0. -/
def c1_state : State :=
  (schedule_create
    ((schedule_create
      ((schedule_create State.empty 1 ⟨0, 10, 0⟩ 60 "t" "pending" "").1)
      1 ⟨1, 0, 0⟩ 60 "t" "pending" "").1)
    1 ⟨0, 14, 0⟩ 60 "t" "pending" "").1

/-- A store holding a single appointment of patient 1 at exactly the
midnight that ends calendar day 0 (`start_ts = 1440`). -/
def c2_state : State :=
  ⟨[], [], [⟨1, 1, "t", 1440, 60, "pending", "manual", ""⟩], 2⟩

/-- A coordinate-bearing day-view row with id 1 starting at minute 20. -/
def c3_rowB : Row := ⟨1, 1, "t", 20, some 0, some 0⟩

/-- A coordinate-bearing day-view row, also with id 1, starting earlier
(minute 10). -/
def c3_rowA : Row := ⟨1, 1, "t", 10, some 9, some 9⟩

/-! ## Helper lemmas -/

/-- A list is a `isPrefixOf` of itself followed by anything. -/
theorem isPrefixOf_append_self (l r : List Char) :
    l.isPrefixOf (l ++ r) = true := by
  induction l with
  | nil => simp [List.isPrefixOf]
  | cons c cs ih => simp [List.isPrefixOf, ih]

/-- The latest-row scan only ever returns its accumulator or a list
element. -/
theorem latestStep_foldl_mem :
    ∀ (l : List Appt) (acc : Option Appt) (b : Appt),
      l.foldl latestStep acc = some b → acc = some b ∨ b ∈ l := by
  intro l
  induction l with
  | nil => intro acc b h; exact Or.inl h
  | cons a rest ih =>
    intro acc b h
    rcases ih (latestStep acc a) b h with h1 | h1
    · cases acc with
      | none =>
        simp only [latestStep, Option.some.injEq] at h1
        exact Or.inr (h1 ▸ List.mem_cons_self a rest)
      | some c =>
        by_cases hc : c.start_ts < a.start_ts
        · simp only [latestStep, if_pos hc, Option.some.injEq] at h1
          exact Or.inr (h1 ▸ List.mem_cons_self a rest)
        · simp only [latestStep, if_neg hc] at h1
          exact Or.inl h1
    · exact Or.inr (List.mem_cons_of_mem _ h1)

/-- `pickLatest` only returns elements of its input. -/
theorem pickLatest_mem {l : List Appt} {b : Appt} (h : pickLatest l = some b) :
    b ∈ l := by
  rcases latestStep_foldl_mem l none b h with h1 | h1
  · exact absurd h1 (by simp)
  · exact h1

/-- The latest-row scan never drops a `some` accumulator. -/
theorem latestStep_foldl_isSome :
    ∀ (l : List Appt) (acc : Option Appt), acc.isSome →
      (l.foldl latestStep acc).isSome := by
  intro l
  induction l with
  | nil => intro acc h; exact h
  | cons a rest ih =>
    intro acc h
    apply ih
    cases acc with
    | none => simp [latestStep]
    | some c =>
      by_cases hc : c.start_ts < a.start_ts <;> simp [latestStep, hc]

/-- `pickLatest` of a nonempty list succeeds. -/
theorem pickLatest_isSome {l : List Appt} (h : l ≠ []) :
    (pickLatest l).isSome := by
  cases l with
  | nil => exact absurd rfl h
  | cons a rest =>
    show (List.foldl latestStep none (a :: rest)).isSome
    rw [List.foldl_cons]
    exact latestStep_foldl_isSome rest (latestStep none a) (by simp [latestStep])

/-- Membership in the upsert's `BETWEEN` query. -/
theorem mem_apptWindowQuery {s : State} {pid : Nat} {lo hi : ℚ} {a : Appt} :
    a ∈ apptWindowQuery s pid lo hi ↔
      a ∈ s.appointments ∧ a.patient_id = pid ∧ lo ≤ a.start_ts ∧
        a.start_ts ≤ hi := by
  simp [apptWindowQuery, List.mem_filter, and_assoc]

/-- A wall-clock time of day `d` has its epoch inside `d`'s closed
midnight bracket. -/
theorem epoch_in_window (d h m : Nat) (hh : h ≤ 23) (hm : m ≤ 59) :
    ((d * 1440 : Nat) : ℚ) ≤ to_epoch ⟨d, h, m⟩ ∧
      to_epoch ⟨d, h, m⟩ ≤ (((d + 1) * 1440 : Nat) : ℚ) := by
  unfold to_epoch
  dsimp only
  constructor <;> · rw [Nat.cast_le]; omega

/-- The `BETWEEN` query is empty when no row of the patient lies in the
closed window. -/
theorem apptWindowQuery_eq_nil {s : State} {pid : Nat} {d : Nat}
    (h : ∀ a ∈ s.appointments, a.patient_id = pid → ¬ inClosedWindow a d) :
    apptWindowQuery s pid ((d * 1440 : Nat) : ℚ) (((d + 1) * 1440 : Nat) : ℚ)
      = [] := by
  unfold apptWindowQuery
  rw [List.filter_eq_nil_iff]
  intro a ha
  simp only [Bool.and_eq_true, beq_iff_eq, decide_eq_true_eq]
  rintro ⟨⟨hpid, hlo⟩, hhi⟩
  exact h a ha hpid ⟨hlo, hhi⟩

/-- When no row of the patient lies in the closed day window, the upsert
appends a fresh row with the next id and returns that id. -/
theorem upsert_insert_case (s : State) (pid : Nat) (ther : String)
    (start : DateTime) (dur : Nat) (st src nt : String)
    (h : ∀ a ∈ s.appointments,
      a.patient_id = pid → ¬ inClosedWindow a start.day) :
    create_or_update_appt s pid ther start dur st src nt =
      ({ s with
          appointments := s.appointments ++
            [⟨s.nextApptId, pid, ther, to_epoch start, dur, st, src, nt⟩],
          nextApptId := s.nextApptId + 1 }, s.nextApptId) := by
  simp only [create_or_update_appt]
  rw [apptWindowQuery_eq_nil h]
  rfl

/-- When the patient's only row in the closed day window is a single `R`
appended to an otherwise windowless store (and no stored id collides with
`R.id`), the upsert rewrites exactly `R` in place and returns `R.id`. -/
theorem upsert_update_single (s : State) (pid : Nat) (ther : String)
    (d h m : Nat) (R : Appt)
    (hRpid : R.patient_id = pid)
    (hRwin : inClosedWindow R d)
    (hid : ∀ a ∈ s.appointments, (a.id == R.id) = false)
    (hothers : ∀ a ∈ s.appointments, a.patient_id = pid → ¬ inClosedWindow a d)
    (nid dur : Nat) (st src nt : String) :
    create_or_update_appt
        { s with appointments := s.appointments ++ [R], nextApptId := nid }
        pid ther ⟨d, h, m⟩ dur st src nt =
      ({ s with
          appointments := s.appointments ++
            [{ R with therapist := ther, start_ts := to_epoch ⟨d, h, m⟩,
                      duration_min := dur, status := st, source := src,
                      note := nt }],
          nextApptId := nid }, R.id) := by
  have hq : apptWindowQuery
      { s with appointments := s.appointments ++ [R], nextApptId := nid }
      pid ((d * 1440 : Nat) : ℚ) (((d + 1) * 1440 : Nat) : ℚ) = [R] := by
    show List.filter _ (s.appointments ++ [R]) = [R]
    rw [List.filter_append]
    have h1 : apptWindowQuery s pid ((d * 1440 : Nat) : ℚ)
        (((d + 1) * 1440 : Nat) : ℚ) = [] := apptWindowQuery_eq_nil hothers
    unfold apptWindowQuery at h1
    rw [h1]
    simp only [List.filter, hRpid, beq_self_eq_true, Bool.true_and,
      decide_eq_true hRwin.1, decide_eq_true hRwin.2, Bool.and_self,
      List.nil_append]
  simp only [create_or_update_appt]
  rw [hq]
  have hpl : pickLatest [R] = some R := rfl
  rw [hpl]
  simp only [List.map_append]
  have hmap : ∀ (l : List Appt), (∀ a ∈ l, (a.id == R.id) = false) →
      l.map (fun a =>
        if a.id == R.id then
          { a with therapist := ther, start_ts := to_epoch ⟨d, h, m⟩,
                   duration_min := dur, status := st, source := src,
                   note := nt }
        else a) = l := by
    intro l hl
    induction l with
    | nil => rfl
    | cons a rest ih =>
      simp only [List.map_cons, hl a (List.mem_cons_self a rest),
        Bool.false_eq_true, if_false, List.cons.injEq, true_and]
      exact ih (fun b hb => hl b (List.mem_cons_of_mem a hb))
  rw [hmap s.appointments hid]
  simp [beq_self_eq_true]

/-- Scanning keyword search finds any boundary-delimited occurrence of a
nonempty alternative. -/
theorem kwSearchAux_of_decomp (kws : List (List Char)) :
    ∀ (pre : List Char) (prev : Option Char) (kw post : List Char),
      kw ∈ kws → kw ≠ [] →
      isWordOpt (effPrev prev pre) = false →
      isWordOpt post.head? = false →
      kwSearchAux kws prev (pre ++ kw ++ post) = true := by
  intro pre
  induction pre with
  | nil =>
    intro prev kw post hkw hne hprev hpost
    cases kw with
    | nil => exact absurd rfl hne
    | cons k ks =>
      simp only [List.nil_append, List.cons_append]
      unfold kwSearchAux
      apply Bool.or_eq_true_iff.2
      left
      refine List.any_eq_true.2 ⟨k :: ks, hkw, ?_⟩
      unfold matchKw
      have h1 : (k :: ks).isPrefixOf ((k :: ks) ++ post) = true :=
        isPrefixOf_append_self _ _
      have h2 : (((k :: ks) ++ post).drop (k :: ks).length) = post :=
        List.drop_left _ _
      simp only [List.cons_append] at h1 h2
      rw [h1, h2]
      simp only [effPrev, List.getLast?_nil] at hprev
      rw [hprev, hpost]
      rfl
  | cons c cs ih =>
    intro prev kw post hkw hne hprev hpost
    simp only [List.cons_append]
    unfold kwSearchAux
    apply Bool.or_eq_true_iff.2
    right
    apply ih (some c) kw post hkw hne ?_ hpost
    cases hcs : cs with
    | nil =>
      subst hcs
      simp only [effPrev, List.getLast?_singleton] at hprev
      simpa [effPrev] using hprev
    | cons d ds =>
      subst hcs
      have h : (c :: d :: ds).getLast? = (d :: ds).getLast? :=
        List.getLast?_cons_cons
      simp only [effPrev] at hprev ⊢
      rw [h] at hprev
      exact hprev

/-- The best-candidate scan only ever returns its accumulator or a list
element. -/
theorem selectBest_foldl_mem (dist : Row → Row → ℚ) (last : Row) :
    ∀ (l : List Row) (acc : Option Row × ℚ) (b : Row),
      (l.foldl (fun acc r =>
        if dist last r < acc.2 then (some r, dist last r) else acc) acc).1 =
          some b →
      acc.1 = some b ∨ b ∈ l := by
  intro l
  induction l with
  | nil => intro acc b h; exact Or.inl h
  | cons a rest ih =>
    intro acc b h
    rcases ih _ b h with h1 | h1
    · dsimp only at h1
      by_cases hc : dist last a < acc.2
      · rw [if_pos hc] at h1
        simp only [Option.some.injEq] at h1
        exact Or.inr (h1 ▸ List.mem_cons_self a rest)
      · rw [if_neg hc] at h1
        exact Or.inl h1
    · exact Or.inr (List.mem_cons_of_mem a h1)

/-- `selectBest` only returns elements of `remaining`. -/
theorem selectBest_mem {dist : Row → Row → ℚ} {last : Row}
    {l : List Row} {b : Row} (h : selectBest dist last l = some b) : b ∈ l := by
  rcases selectBest_foldl_mem dist last l (none, 1000000000) b h with h1 | h1
  · exact absurd h1 (by simp)
  · exact h1

/-- The best-candidate scan never drops a found candidate. -/
theorem selectBest_foldl_isSome (dist : Row → Row → ℚ) (last : Row) :
    ∀ (l : List Row) (acc : Option Row × ℚ), acc.1.isSome →
      (l.foldl (fun acc r =>
        if dist last r < acc.2 then (some r, dist last r) else acc) acc).1.isSome := by
  intro l
  induction l with
  | nil => intro acc h; exact h
  | cons a rest ih =>
    intro acc h
    apply ih
    dsimp only
    by_cases hc : dist last a < acc.2
    · rw [if_pos hc]; rfl
    · rw [if_neg hc]; exact h

/-- With every score below the `1e9` sentinel, `selectBest` of a nonempty
list succeeds. -/
theorem selectBest_isSome {dist : Row → Row → ℚ} {last : Row} {l : List Row}
    (hd : ∀ r ∈ l, dist last r < 1000000000) (hne : l ≠ []) :
    (selectBest dist last l).isSome := by
  cases l with
  | nil => exact absurd rfl hne
  | cons a rest =>
    show (List.foldl _ ((none : Option Row), (1000000000 : ℚ))
      (a :: rest)).1.isSome
    rw [List.foldl_cons]
    apply selectBest_foldl_isSome
    rw [if_pos (hd a (List.mem_cons_self a rest))]
    rfl

/-- With every score below the sentinel and enough fuel, the greedy loop
returns a permutation of the remaining stops. -/
theorem nnLoop_perm (dist : Row → Row → ℚ)
    (hdist : ∀ a b, dist a b < 1000000000) :
    ∀ (fuel : Nat) (last : Row) (remaining : List Row),
      remaining.length ≤ fuel →
      ∃ out, nnLoop dist fuel last remaining = some out ∧
        out.Perm remaining := by
  intro fuel
  induction fuel with
  | zero =>
    intro last remaining hlen
    have hnil : remaining = [] :=
      List.eq_nil_of_length_eq_zero (Nat.le_zero.mp hlen)
    subst hnil
    exact ⟨[], rfl, List.Perm.refl []⟩
  | succ fuel ih =>
    intro last remaining hlen
    by_cases hemp : remaining = []
    · subst hemp
      exact ⟨[], rfl, List.Perm.refl []⟩
    · have hsome := selectBest_isSome (fun r _ => hdist last r) hemp
      obtain ⟨b, hb⟩ := Option.isSome_iff_exists.mp hsome
      have hbmem := selectBest_mem hb
      have hlen' : (remaining.erase b).length ≤ fuel := by
        rw [List.length_erase_of_mem hbmem]
        have : 1 ≤ remaining.length := List.length_pos.mpr hemp
        omega
      obtain ⟨out', hout', hperm'⟩ := ih b (remaining.erase b) hlen'
      refine ⟨b :: out', ?_, ?_⟩
      · show nnLoop dist (fuel + 1) last remaining = some (b :: out')
        unfold nnLoop
        rw [if_neg (by simpa [List.isEmpty_iff] using hemp), hb]
        show Option.map (fun l => b :: l)
          (nnLoop dist fuel b (remaining.erase b)) = some (b :: out')
        rw [hout']
        rfl
      · exact (hperm'.cons b).trans (List.perm_cons_erase hbmem).symm

/-- The earliest-start scan returns a member attaining the minimum
`start_ts`. -/
theorem minFold_spec :
    ∀ (rest : List Row) (cur : Row),
      (rest.foldl (fun cur x =>
          if x.start_ts < cur.start_ts then x else cur) cur) ∈ cur :: rest ∧
      ∀ x ∈ cur :: rest,
        (rest.foldl (fun cur x =>
          if x.start_ts < cur.start_ts then x else cur) cur).start_ts ≤
            x.start_ts := by
  intro rest
  induction rest with
  | nil =>
    intro cur
    refine ⟨List.mem_cons_self cur [], ?_⟩
    intro x hx
    rcases List.mem_cons.mp hx with h | h
    · exact h ▸ le_refl _
    · exact absurd h (List.not_mem_nil x)
  | cons a rest ih =>
    intro cur
    obtain ⟨ihmem, ihmin⟩ := ih (if a.start_ts < cur.start_ts then a else cur)
    have hstep_le_cur :
        (if a.start_ts < cur.start_ts then a else cur).start_ts ≤
          cur.start_ts := by
      by_cases hc : a.start_ts < cur.start_ts
      · rw [if_pos hc]; exact le_of_lt hc
      · rw [if_neg hc]
    have hstep_le_a :
        (if a.start_ts < cur.start_ts then a else cur).start_ts ≤
          a.start_ts := by
      by_cases hc : a.start_ts < cur.start_ts
      · rw [if_pos hc]
      · rw [if_neg hc]; exact le_of_not_lt hc
    have hres_le_step := ihmin _ (List.mem_cons_self _ _)
    rw [List.foldl_cons]
    constructor
    · rcases List.mem_cons.mp ihmem with h | h
      · rw [h]
        by_cases hc : a.start_ts < cur.start_ts
        · rw [if_pos hc]
          exact List.mem_cons_of_mem cur (List.mem_cons_self a rest)
        · rw [if_neg hc]
          exact List.mem_cons_self cur (a :: rest)
      · exact List.mem_cons_of_mem cur (List.mem_cons_of_mem a h)
    · intro x hx
      rcases List.mem_cons.mp hx with h | hx2
      · subst h
        exact le_trans hres_le_step hstep_le_cur
      rcases List.mem_cons.mp hx2 with h | h
      · subst h
        exact le_trans hres_le_step hstep_le_a
      · exact ihmin x (List.mem_cons_of_mem _ h)

/-- `minFirst` returns a member attaining the minimal `start_ts`. -/
theorem minFirst_spec {l : List Row} {b : Row} (h : minFirst l = some b) :
    b ∈ l ∧ ∀ x ∈ l, b.start_ts ≤ x.start_ts := by
  cases l with
  | nil => exact absurd h (by simp [minFirst])
  | cons a rest =>
    have hb : (rest.foldl (fun cur x =>
        if x.start_ts < cur.start_ts then x else cur) a) = b := by
      simpa [minFirst] using h
    obtain ⟨hmem, hmin⟩ := minFold_spec rest a
    rw [hb] at hmem hmin
    exact ⟨hmem, hmin⟩

/-- The rank scan leaves its default when the id never occurs. -/
theorem rankAux_not_mem :
    ∀ (l : List Row) (i r idv : Nat), idv ∉ l.map Row.id →
      rankAux l i r idv = r := by
  intro l
  induction l with
  | nil => intro i r idv _; rfl
  | cons a rest ih =>
    intro i r idv h
    simp only [List.map_cons, List.mem_cons, not_or] at h
    show rankAux rest (i + 1) (if a.id == idv then i else r) idv = r
    have hbeq : (a.id == idv) = false :=
      beq_eq_false_iff_ne.mpr (fun he => h.1 he.symm)
    rw [hbeq]
    exact ih (i + 1) r idv h.2

/-- With no duplicate ids, the rank scan returns the base offset plus the
index of the id. -/
theorem rankAux_indexOf :
    ∀ (l : List Row) (i r idv : Nat), idv ∈ l.map Row.id →
      (l.map Row.id).Nodup →
      rankAux l i r idv = i + (l.map Row.id).indexOf idv := by
  intro l
  induction l with
  | nil => intro i r idv h _; exact absurd h (List.not_mem_nil idv)
  | cons a rest ih =>
    intro i r idv hmem hnd
    simp only [List.map_cons] at hnd ⊢
    show rankAux rest (i + 1) (if a.id == idv then i else r) idv = _
    by_cases he : a.id = idv
    · subst he
      rw [show (a.id == a.id) = true from beq_self_eq_true a.id, if_pos rfl]
      have hnotin : a.id ∉ rest.map Row.id := (List.nodup_cons.mp hnd).1
      rw [rankAux_not_mem rest (i + 1) i a.id hnotin,
        List.indexOf_cons_self a.id (rest.map Row.id)]
      omega
    · have hbeq : (a.id == idv) = false := beq_eq_false_iff_ne.mpr he
      rw [hbeq, if_neg (by simp)]
      have hmem' : idv ∈ rest.map Row.id := by
        rw [List.map_cons] at hmem
        rcases List.mem_cons.mp hmem with h | h
        · exact absurd h.symm he
        · exact h
      rw [ih (i + 1) r idv hmem' (List.nodup_cons.mp hnd).2,
        List.indexOf_cons_ne (rest.map Row.id) he]
      omega

/-- Rank of an id occurring (once) in the tour is its index there. -/
theorem rankOf_indexOf {ordered : List Row} {idv : Nat}
    (hmem : idv ∈ ordered.map Row.id) (hnd : (ordered.map Row.id).Nodup) :
    rankOf ordered idv = (ordered.map Row.id).indexOf idv := by
  unfold rankOf
  rw [rankAux_indexOf ordered 0 9999 idv hmem hnd]
  omega

/-- Rank of an id not in the tour is the default 9999. -/
theorem rankOf_not_mem {ordered : List Row} {idv : Nat}
    (h : idv ∉ ordered.map Row.id) : rankOf ordered idv = 9999 :=
  rankAux_not_mem ordered 0 9999 idv h

/-- The stable re-sort is sorted by the rank key. -/
theorem sorted_sortByRank (key : Nat → Nat) (l : List Row) :
    List.Sorted (fun a b => key a.id ≤ key b.id) (sortByRank key l) := by
  haveI : IsTotal Row (fun a b => key a.id ≤ key b.id) :=
    ⟨fun a b => Nat.le_total _ _⟩
  haveI : IsTrans Row (fun a b => key a.id ≤ key b.id) :=
    ⟨fun a b c => Nat.le_trans⟩
  exact List.sorted_insertionSort _ _

/-- The stable re-sort permutes its input. -/
theorem perm_sortByRank (key : Nat → Nat) (l : List Row) :
    (sortByRank key l).Perm l :=
  List.perm_insertionSort _ _

/-- A list sorted by a key that is < 9999 exactly on coordinate-bearing
rows and = 9999 on coordinate-less rows decomposes as the coordinate rows
followed by the coordinate-less rows. -/
theorem sorted_key_partition (key : Nat → Nat) :
    ∀ (out : List Row),
      List.Sorted (fun a b => key a.id ≤ key b.id) out →
      (∀ x ∈ out, (hasCoords x = true → key x.id < 9999) ∧
        (hasCoords x = false → key x.id = 9999)) →
      out = out.filter (fun a => hasCoords a) ++
        out.filter (fun a => !hasCoords a) := by
  intro out
  induction out with
  | nil => intro _ _; rfl
  | cons a rest ih =>
    intro hs hc
    have hstail : List.Sorted _ rest := hs.of_cons
    have hrel := List.rel_of_sorted_cons hs
    have hctail : ∀ x ∈ rest, (hasCoords x = true → key x.id < 9999) ∧
        (hasCoords x = false → key x.id = 9999) :=
      fun x hx => hc x (List.mem_cons_of_mem a hx)
    cases hca : hasCoords a with
    | true =>
      have := ih hstail hctail
      simp only [List.filter_cons, hca, Bool.not_true, List.cons_append]
      exact congrArg (a :: ·) this
    | false =>
      have hka : key a.id = 9999 :=
        (hc a (List.mem_cons_self a rest)).2 hca
      have hall : ∀ x ∈ rest, hasCoords x = false := by
        intro x hx
        cases hcx : hasCoords x with
        | false => rfl
        | true =>
          have h1 := (hctail x hx).1 hcx
          have h2 := hrel x hx
          rw [hka] at h2
          omega
      have hf1 : rest.filter (fun x => hasCoords x) = [] := by
        rw [List.filter_eq_nil_iff]
        intro x hx
        simp [hall x hx]
      have hf2 : rest.filter (fun x => !hasCoords x) = rest := by
        rw [List.filter_eq_self]
        intro x hx
        simp [hall x hx]
      simp [List.filter_cons, hca, hf1, hf2]

/-- Inserting a row into a list keeps the coordinate-less sublist, adding
the row at its front exactly when it is itself coordinate-less (under the
same key discipline). -/
theorem orderedInsert_filter_not (key : Nat → Nat) (a : Row)
    (hA : (hasCoords a = true → key a.id < 9999) ∧
      (hasCoords a = false → key a.id = 9999)) :
    ∀ (l : List Row),
      (∀ x ∈ l, (hasCoords x = true → key x.id < 9999) ∧
        (hasCoords x = false → key x.id = 9999)) →
      (List.orderedInsert (fun x y => key x.id ≤ key y.id) a l).filter
          (fun x => !hasCoords x) =
        if hasCoords a then l.filter (fun x => !hasCoords x)
        else a :: l.filter (fun x => !hasCoords x) := by
  intro l
  induction l with
  | nil =>
    intro _
    cases hca : hasCoords a <;>
      simp [List.orderedInsert, List.filter_cons, hca]
  | cons b rest ih =>
    intro hl
    simp only [List.orderedInsert]
    by_cases hrel : key a.id ≤ key b.id
    · rw [if_pos hrel]
      cases hca : hasCoords a <;> simp [List.filter_cons, hca]
    · rw [if_neg hrel]
      have hb : hasCoords b = true := by
        cases hcb : hasCoords b with
        | true => rfl
        | false =>
          have hkb := (hl b (List.mem_cons_self b rest)).2 hcb
          have hka : key a.id ≤ 9999 := by
            cases hca : hasCoords a with
            | true => exact Nat.le_of_lt (hA.1 hca)
            | false => exact Nat.le_of_eq (hA.2 hca)
          rw [hkb] at hrel
          exact absurd hka hrel
      have ih' := ih (fun x hx => hl x (List.mem_cons_of_mem b hx))
      cases hca : hasCoords a <;>
        simp [List.filter_cons, hb, hca, ih']

/-- The stable re-sort preserves the coordinate-less rows in their
original relative order (stability of `sorted` restricted to the maximal
key class). -/
theorem sortByRank_filter_not (key : Nat → Nat) :
    ∀ (l : List Row),
      (∀ x ∈ l, (hasCoords x = true → key x.id < 9999) ∧
        (hasCoords x = false → key x.id = 9999)) →
      (sortByRank key l).filter (fun x => !hasCoords x) =
        l.filter (fun x => !hasCoords x) := by
  intro l
  induction l with
  | nil => intro _; rfl
  | cons a rest ih =>
    intro hl
    have hsort_mem : ∀ x ∈ List.insertionSort
        (fun x y => key x.id ≤ key y.id) rest,
        (hasCoords x = true → key x.id < 9999) ∧
        (hasCoords x = false → key x.id = 9999) := by
      intro x hx
      exact hl x (List.mem_cons_of_mem a
        ((List.perm_insertionSort _ rest).mem_iff.mp hx))
    show (List.orderedInsert (fun x y => key x.id ≤ key y.id) a
        (List.insertionSort (fun x y => key x.id ≤ key y.id) rest)).filter
          (fun x => !hasCoords x) = _
    rw [orderedInsert_filter_not key a (hl a (List.mem_cons_self a rest)) _
      hsort_mem]
    have ih' := ih (fun x hx => hl x (List.mem_cons_of_mem a hx))
    show (if hasCoords a then (sortByRank key rest).filter _
      else a :: (sortByRank key rest).filter _) = _
    rw [ih']
    cases hca : hasCoords a <;> simp [List.filter_cons, hca]

/-! ## Claim C1 -/

/-- Claim C1 (code bug): the at-most-one-appointment-per-(patient, day)
invariant is violated.  `create_or_update_appt`'s `BETWEEN` window is
inclusive at the next midnight, so the third upsert (day 0, 14:00) matches
and rewrites the day-1 midnight row instead of the day-0 row, leaving two
appointments for patient 1 on calendar day 0. -/
theorem C1_day_uniqueness_violated :
    (c1_state.appointments.filter
      (fun a => a.patient_id == 1 && onDay a 0)).length = 2 := by
  decide

/-! ## Claim C2 -/

/-- Claim C2 (counterexample): the upsert lookup window is **not** the
half-open interval `[midnight, next midnight)`.  Upserting 14:00 of day 0
for patient 1 into `c2_state` should, per the claim, find no existing
day-0 appointment and insert a second row; the code instead matches the
midnight-of-day-1 row (SQLite `BETWEEN` is inclusive) and overwrites it,
leaving a single row. -/
theorem C2_counterexample :
    ((create_or_update_appt c2_state 1 "t" ⟨0, 14, 0⟩ 60 "pending" "manual"
        "").1.appointments.length = 1) ∧
    ((upsert_specHalfOpen c2_state 1 "t" ⟨0, 14, 0⟩ 60 "pending" "manual"
        "").1.appointments.length = 2) ∧
    (create_or_update_appt c2_state 1 "t" ⟨0, 14, 0⟩ 60 "pending" "manual" ""
      ≠ upsert_specHalfOpen c2_state 1 "t" ⟨0, 14, 0⟩ 60 "pending" "manual"
        "") := by
  refine ⟨by decide, by decide, by decide⟩

/-- Claim C2 (amended): the upsert looks up the patient's appointments in
the **closed** window `[local midnight, next midnight]` (SQLite `BETWEEN`).
With no row of the patient in that window it inserts a fresh row and
returns the new id; with such a row present it overwrites therapist,
start, duration, status, source and note on a row of that window and
returns that row's id, leaving the row count unchanged.  Consequently two
upserts for the same patient and calendar day with different times,
starting from a store with none of that patient's rows in the day's
window, leave exactly one new row holding the second upsert's values —
and re-upserting identical data changes nothing and returns the same
id. -/
theorem C2_upsert_amended :
    (∀ (s : State) (pid : Nat) (ther : String) (start : DateTime)
        (dur : Nat) (st src nt : String),
      (∀ a ∈ s.appointments,
        a.patient_id = pid → ¬ inClosedWindow a start.day) →
      create_or_update_appt s pid ther start dur st src nt =
        ({ s with
            appointments := s.appointments ++
              [⟨s.nextApptId, pid, ther, to_epoch start, dur, st, src, nt⟩],
            nextApptId := s.nextApptId + 1 }, s.nextApptId)) ∧
    (∀ (s : State) (pid : Nat) (ther : String) (start : DateTime)
        (dur : Nat) (st src nt : String),
      (∃ a ∈ s.appointments, a.patient_id = pid ∧ inClosedWindow a start.day) →
      (create_or_update_appt s pid ther start dur st src
          nt).1.appointments.length = s.appointments.length ∧
      (∃ a ∈ s.appointments,
        a.id = (create_or_update_appt s pid ther start dur st src nt).2 ∧
        a.patient_id = pid ∧ inClosedWindow a start.day) ∧
      (∃ a ∈ (create_or_update_appt s pid ther start dur st src
          nt).1.appointments,
        a.id = (create_or_update_appt s pid ther start dur st src nt).2 ∧
        a.therapist = ther ∧ a.start_ts = to_epoch start ∧
        a.duration_min = dur ∧ a.status = st ∧ a.source = src ∧
        a.note = nt)) ∧
    (∀ (s : State) (pid d h₁ m₁ h₂ m₂ dur₁ dur₂ : Nat)
        (ther₁ ther₂ st₁ st₂ src₁ src₂ nt₁ nt₂ : String),
      h₁ ≤ 23 → m₁ ≤ 59 → h₂ ≤ 23 → m₂ ≤ 59 →
      (∀ a ∈ s.appointments, a.id < s.nextApptId) →
      (∀ a ∈ s.appointments, a.patient_id = pid → ¬ inClosedWindow a d) →
      create_or_update_appt
          (create_or_update_appt s pid ther₁ ⟨d, h₁, m₁⟩ dur₁ st₁ src₁ nt₁).1
          pid ther₂ ⟨d, h₂, m₂⟩ dur₂ st₂ src₂ nt₂ =
        ({ s with
            appointments := s.appointments ++
              [⟨s.nextApptId, pid, ther₂, to_epoch ⟨d, h₂, m₂⟩, dur₂, st₂,
                src₂, nt₂⟩],
            nextApptId := s.nextApptId + 1 }, s.nextApptId) ∧
      create_or_update_appt
          ({ s with
              appointments := s.appointments ++
                [⟨s.nextApptId, pid, ther₂, to_epoch ⟨d, h₂, m₂⟩, dur₂, st₂,
                  src₂, nt₂⟩],
              nextApptId := s.nextApptId + 1 })
          pid ther₂ ⟨d, h₂, m₂⟩ dur₂ st₂ src₂ nt₂ =
        ({ s with
            appointments := s.appointments ++
              [⟨s.nextApptId, pid, ther₂, to_epoch ⟨d, h₂, m₂⟩, dur₂, st₂,
                src₂, nt₂⟩],
            nextApptId := s.nextApptId + 1 }, s.nextApptId)) := by
  refine ⟨upsert_insert_case, ?_, ?_⟩
  · rintro s pid ther start dur st src nt ⟨a0, ha0, hpid0, hwin0⟩
    have ha0q : a0 ∈ apptWindowQuery s pid ((start.day * 1440 : Nat) : ℚ)
        (((start.day + 1) * 1440 : Nat) : ℚ) :=
      mem_apptWindowQuery.2 ⟨ha0, hpid0, hwin0.1, hwin0.2⟩
    have hqne : apptWindowQuery s pid ((start.day * 1440 : Nat) : ℚ)
        (((start.day + 1) * 1440 : Nat) : ℚ) ≠ [] := by
      intro hnil
      rw [hnil] at ha0q
      exact absurd ha0q (List.not_mem_nil a0)
    obtain ⟨row, hrow⟩ := Option.isSome_iff_exists.mp (pickLatest_isSome hqne)
    obtain ⟨hrowmem, hrowpid, hrowlo, hrowhi⟩ :=
      mem_apptWindowQuery.1 (pickLatest_mem hrow)
    have hred : create_or_update_appt s pid ther start dur st src nt =
        ({ s with appointments := s.appointments.map (fun a =>
            if a.id == row.id then
              { a with therapist := ther, start_ts := to_epoch start,
                       duration_min := dur, status := st, source := src,
                       note := nt }
            else a) }, row.id) := by
      simp only [create_or_update_appt]
      rw [hrow]
    rw [hred]
    refine ⟨by simp, ⟨row, hrowmem, rfl, hrowpid, hrowlo, hrowhi⟩, ?_⟩
    refine ⟨(fun a =>
        if a.id == row.id then
          { a with therapist := ther, start_ts := to_epoch start,
                   duration_min := dur, status := st, source := src,
                   note := nt }
        else a) row, List.mem_map_of_mem _ hrowmem, ?_⟩
    simp [beq_self_eq_true]
  · intro s pid d h₁ m₁ h₂ m₂ dur₁ dur₂ ther₁ ther₂ st₁ st₂ src₁ src₂ nt₁ nt₂
      hh₁ hm₁ hh₂ hm₂ hids hno
    have hstep1 := upsert_insert_case s pid ther₁ ⟨d, h₁, m₁⟩ dur₁ st₁ src₁ nt₁
      (by intro a ha hpid; exact hno a ha hpid)
    have hidfalse : ∀ a ∈ s.appointments,
        (a.id == (⟨s.nextApptId, pid, ther₁, to_epoch ⟨d, h₁, m₁⟩, dur₁, st₁,
          src₁, nt₁⟩ : Appt).id) = false := by
      intro a ha
      exact beq_eq_false_iff_ne.mpr (Nat.ne_of_lt (hids a ha))
    have hidfalse₂ : ∀ a ∈ s.appointments,
        (a.id == (⟨s.nextApptId, pid, ther₂, to_epoch ⟨d, h₂, m₂⟩, dur₂, st₂,
          src₂, nt₂⟩ : Appt).id) = false := by
      intro a ha
      exact beq_eq_false_iff_ne.mpr (Nat.ne_of_lt (hids a ha))
    constructor
    · rw [hstep1]
      have hupd := upsert_update_single s pid ther₂ d h₂ m₂
        ⟨s.nextApptId, pid, ther₁, to_epoch ⟨d, h₁, m₁⟩, dur₁, st₁, src₁, nt₁⟩
        rfl ⟨(epoch_in_window d h₁ m₁ hh₁ hm₁).1,
             (epoch_in_window d h₁ m₁ hh₁ hm₁).2⟩
        hidfalse hno (s.nextApptId + 1) dur₂ st₂ src₂ nt₂
      rw [hupd]
    · have hupd := upsert_update_single s pid ther₂ d h₂ m₂
        ⟨s.nextApptId, pid, ther₂, to_epoch ⟨d, h₂, m₂⟩, dur₂, st₂, src₂, nt₂⟩
        rfl ⟨(epoch_in_window d h₂ m₂ hh₂ hm₂).1,
             (epoch_in_window d h₂ m₂ hh₂ hm₂).2⟩
        hidfalse₂ hno (s.nextApptId + 1) dur₂ st₂ src₂ nt₂
      rw [hupd]

/-- Claim C2 witness: upserting 9:00 of day 0 for patient 1 into the empty
store inserts a single row with id 1. -/
theorem C2_witness :
    create_or_update_appt State.empty 1 "t" ⟨0, 9, 0⟩ 60 "pending" "manual"
        "" =
      ({ State.empty with
          appointments := State.empty.appointments ++
            [⟨State.empty.nextApptId, 1, "t", to_epoch ⟨0, 9, 0⟩, 60,
              "pending", "manual", ""⟩],
          nextApptId := State.empty.nextApptId + 1 },
       State.empty.nextApptId) :=
  C2_upsert_amended.1 State.empty 1 "t" ⟨0, 9, 0⟩ 60 "pending" "manual" ""
    (by intro a ha; exact absurd ha (List.not_mem_nil a))

/-! ## Claim C3 -/

/-- Claim C3 (counterexample): with a duplicated appointment id the rank
dictionary `{a["id"]: i}` keeps only the **last** tour position of the id,
so the first element of the output need not be the earliest
coordinate-bearing appointment.  Here both rows carry coordinates and the
same id 1; the earlier-starting row `c3_rowA` heads the greedy tour, yet
the re-sort leaves the later-starting `c3_rowB` first. -/
theorem C3_counterexample :
    optimize_route (fun _ _ => (0 : ℚ)) [c3_rowB, c3_rowA] =
      some [c3_rowB, c3_rowA] ∧
    hasCoords c3_rowA = true ∧ hasCoords c3_rowB = true ∧
    c3_rowA.start_ts < c3_rowB.start_ts := by
  refine ⟨by decide, by decide, by decide, by decide⟩

/-- Claim C3 (amended): for pairwise-distinct appointment ids, pairwise
scores below the `1e9` sentinel, and between 2 and 9999 coordinate-bearing
rows (9999 being the hard-coded rank default for coordinate-less rows),
`optimize_route` returns a permutation of the input — same multiset of
ids, no loss, no duplication — whose first element is a coordinate-bearing
row of minimal start timestamp, in which every coordinate-less row comes
after every coordinate-bearing one, the coordinate-less rows keeping their
original relative order. -/
theorem C3_optimize_amended
    (dist : Row → Row → ℚ) (appts : List Row)
    (hdist : ∀ a b, dist a b < 1000000000)
    (hnodup : (appts.map Row.id).Nodup)
    (h2 : 2 ≤ (appts.filter (fun a => hasCoords a)).length)
    (h9 : (appts.filter (fun a => hasCoords a)).length ≤ 9999) :
    ∃ out, optimize_route dist appts = some out ∧
      out.Perm appts ∧
      (out.map Row.id).Perm (appts.map Row.id) ∧
      (∃ h0 tl, out = h0 :: tl ∧ hasCoords h0 = true ∧
        ∀ a ∈ appts, hasCoords a = true → h0.start_ts ≤ a.start_ts) ∧
      out = out.filter (fun a => hasCoords a) ++
        out.filter (fun a => !hasCoords a) ∧
      out.filter (fun a => !hasCoords a) =
        appts.filter (fun a => !hasCoords a) := by
  set pts := appts.filter (fun a => hasCoords a) with hpts
  have hptsne : pts ≠ [] := by
    intro h
    rw [h] at h2
    simp at h2
  cases hmf : minFirst pts with
  | none =>
    cases hp : pts with
    | nil => exact absurd hp hptsne
    | cons x xs =>
      rw [hp] at hmf
      exact absurd hmf (by simp [minFirst])
  | some h0 =>
  obtain ⟨hh0pts, hh0min⟩ := minFirst_spec hmf
  obtain ⟨rest, hrest, hrestperm⟩ :=
    nnLoop_perm dist hdist (pts.erase h0).length h0 (pts.erase h0) le_rfl
  have hordperm : (h0 :: rest).Perm pts :=
    (hrestperm.cons h0).trans (List.perm_cons_erase hh0pts).symm
  have hlt : ¬ pts.length < 2 := by omega
  have hopt : optimize_route dist appts =
      some (sortByRank (rankOf (h0 :: rest)) appts) := by
    simp only [optimize_route, ← hpts]
    rw [if_neg hlt]
    simp only [hmf, hrest]
  have houtperm : (sortByRank (rankOf (h0 :: rest)) appts).Perm appts :=
    perm_sortByRank _ _
  have hsub : pts.Sublist appts := by
    rw [hpts]
    exact List.filter_sublist appts
  have hptsnodup : (pts.map Row.id).Nodup :=
    (hsub.map Row.id).nodup hnodup
  have hordnodup : ((h0 :: rest).map Row.id).Nodup :=
    ((hordperm.map Row.id).nodup_iff).mpr hptsnodup
  have hinj := List.inj_on_of_nodup_map hnodup
  have hkey : ∀ a ∈ appts,
      (hasCoords a = true → rankOf (h0 :: rest) a.id < 9999) ∧
      (hasCoords a = false → rankOf (h0 :: rest) a.id = 9999) := by
    intro a ha
    constructor
    · intro hca
      have hapts : a ∈ pts := by
        rw [hpts]
        exact List.mem_filter.mpr ⟨ha, hca⟩
      have haid : a.id ∈ (h0 :: rest).map Row.id :=
        (hordperm.map Row.id).mem_iff.mpr (List.mem_map_of_mem Row.id hapts)
      rw [rankOf_indexOf haid hordnodup]
      have hidx := List.indexOf_lt_length.mpr haid
      have hlen : ((h0 :: rest).map Row.id).length = pts.length := by
        rw [List.length_map]
        exact hordperm.length_eq
      omega
    · intro hca
      apply rankOf_not_mem
      intro hmem
      have hmem' : a.id ∈ pts.map Row.id :=
        (hordperm.map Row.id).mem_iff.mp hmem
      obtain ⟨b, hbpts, hbid⟩ := List.mem_map.mp hmem'
      have hbapts : b ∈ appts := hsub.subset hbpts
      have hbc : hasCoords b = true := by
        rw [hpts] at hbpts
        exact (List.mem_filter.mp hbpts).2
      have hba : b = a := hinj hbapts ha hbid
      rw [hba] at hbc
      rw [hbc] at hca
      exact Bool.noConfusion hca
  have hkeyout : ∀ x ∈ sortByRank (rankOf (h0 :: rest)) appts,
      (hasCoords x = true → rankOf (h0 :: rest) x.id < 9999) ∧
      (hasCoords x = false → rankOf (h0 :: rest) x.id = 9999) :=
    fun x hx => hkey x (houtperm.mem_iff.mp hx)
  have hsort := sorted_sortByRank (rankOf (h0 :: rest)) appts
  have hpartition := sorted_key_partition (rankOf (h0 :: rest)) _ hsort hkeyout
  have hstable := sortByRank_filter_not (rankOf (h0 :: rest)) appts hkey
  have hh0appts : h0 ∈ appts := hsub.subset hh0pts
  have hh0c : hasCoords h0 = true := by
    have := hh0pts
    rw [hpts] at this
    exact (List.mem_filter.mp this).2
  have hkh0 : rankOf (h0 :: rest) h0.id = 0 := by
    have hmem0 : h0.id ∈ (h0 :: rest).map Row.id := by simp
    rw [rankOf_indexOf hmem0 hordnodup, List.map_cons,
      List.indexOf_cons_self]
  have hh0out : h0 ∈ sortByRank (rankOf (h0 :: rest)) appts :=
    houtperm.mem_iff.mpr hh0appts
  cases hx : sortByRank (rankOf (h0 :: rest)) appts with
  | nil =>
    rw [hx] at hh0out
    exact absurd hh0out (List.not_mem_nil h0)
  | cons x tl =>
  have hsort' := hx ▸ hsort
  have hrelx := List.rel_of_sorted_cons hsort'
  have hxout : x ∈ sortByRank (rankOf (h0 :: rest)) appts := by
    rw [hx]
    exact List.mem_cons_self x tl
  have hxapts : x ∈ appts := houtperm.mem_iff.mp hxout
  have hxh0 : x = h0 := by
    rcases List.mem_cons.mp (hx ▸ hh0out) with he | htl
    · exact he.symm
    · have hle : rankOf (h0 :: rest) x.id ≤ rankOf (h0 :: rest) h0.id :=
        hrelx h0 htl
      rw [hkh0] at hle
      have hk0 : rankOf (h0 :: rest) x.id = 0 := Nat.le_zero.mp hle
      have hcx : hasCoords x = true := by
        cases hcx : hasCoords x with
        | true => rfl
        | false =>
          have := (hkey x hxapts).2 hcx
          rw [this] at hk0
          exact absurd hk0 (by omega)
      have hxpts : x ∈ pts := by
        rw [hpts]
        exact List.mem_filter.mpr ⟨hxapts, hcx⟩
      have hxid : x.id ∈ (h0 :: rest).map Row.id :=
        (hordperm.map Row.id).mem_iff.mpr (List.mem_map_of_mem Row.id hxpts)
      rw [rankOf_indexOf hxid hordnodup] at hk0
      have hid_eq : h0.id = x.id := by
        by_contra hne
        rw [List.map_cons, List.indexOf_cons_ne _ hne] at hk0
        exact absurd hk0 (by omega)
      exact hinj hxapts hh0appts hid_eq.symm
  refine ⟨sortByRank (rankOf (h0 :: rest)) appts, hopt, houtperm,
    houtperm.map Row.id, ⟨x, tl, hx, ?_, ?_⟩, hpartition, hstable⟩
  · rw [hxh0]
    exact hh0c
  · intro a ha hca
    rw [hxh0]
    apply hh0min
    rw [hpts]
    exact List.mem_filter.mpr ⟨ha, hca⟩

/-- Claim C3 witness: two coordinate-bearing rows with distinct ids under
the constant metric. -/
theorem C3_witness :
    ∃ out, optimize_route (fun _ _ => (1 : ℚ))
        [⟨1, 1, "t", 50, some 0, some 0⟩, ⟨2, 2, "t", 30, some 5, some 5⟩] =
          some out ∧
      out.Perm [⟨1, 1, "t", 50, some 0, some 0⟩,
        ⟨2, 2, "t", 30, some 5, some 5⟩] ∧
      (out.map Row.id).Perm
        ([⟨1, 1, "t", 50, some 0, some 0⟩,
          ⟨2, 2, "t", 30, some 5, some 5⟩].map Row.id) ∧
      (∃ h0 tl, out = h0 :: tl ∧ hasCoords h0 = true ∧
        ∀ a ∈ [⟨1, 1, "t", 50, some 0, some 0⟩,
          ⟨2, 2, "t", 30, some 5, some 5⟩],
          hasCoords a = true → h0.start_ts ≤ a.start_ts) ∧
      out = out.filter (fun a => hasCoords a) ++
        out.filter (fun a => !hasCoords a) ∧
      out.filter (fun a => !hasCoords a) =
        [⟨1, 1, "t", 50, some 0, some 0⟩,
          ⟨2, 2, "t", 30, some 5, some 5⟩].filter (fun a => !hasCoords a) :=
  C3_optimize_amended (fun _ _ => (1 : ℚ))
    [⟨1, 1, "t", 50, some 0, some 0⟩, ⟨2, 2, "t", 30, some 5, some 5⟩]
    (fun _ _ => by norm_num) (by decide) (by decide) (by decide)

/-! ## Claim C4 -/

/-- Claim C4 (counterexample): with a weekday name present the code takes
the next occurrence **on or after** the reference day, not strictly after
it.  For the text `"monday 9am"` and a Monday reference day (day 0), the
claim's strictly-after rule lands on day 7, while the parser returns the
reference day itself. -/
theorem C4_counterexample :
    parse_natural_time_minimal "monday 9am" ⟨0, 8, 0⟩ =
      (some ⟨0, 9, 0⟩, some 60, "ok") ∧
    claimTargetDayStrict (lowerStr "monday 9am") ⟨0, 8, 0⟩ = 7 ∧
    targetDayOf (lowerStr "monday 9am") ⟨0, 8, 0⟩ ≠
      claimTargetDayStrict (lowerStr "monday 9am") ⟨0, 8, 0⟩ := by
  refine ⟨by decide, by decide, by decide⟩

/-- Claim C4 (amended): the target calendar day of
`parse_natural_time_minimal`.  `tomorrow` gives reference day + 1; else a
weekday alias gives the next occurrence **on or after** the reference day
(`delta = (idx - weekday) % 7`, a zero delta staying on the reference day
unless the text also contains `next`, which bumps it a full week); else the
reference day.  Any text containing `tomorrow` with a valid time token
parses to a start on reference day + 1 at the normalized hour/minute. -/
theorem C4_target_day_amended :
    (∀ (t : List Char) (base : DateTime),
      occursSub tomorrowKw t = true → targetDayOf t base = base.day + 1) ∧
    (∀ (t : List Char) (base : DateTime) (kv : List Char × Nat),
      occursSub tomorrowKw t = false → weekdayFind t = some kv →
      targetDayOf t base = base.day +
        (if (kv.2 + 7 - weekdayOf base.day) % 7 = 0 ∧ occursSub nextKw t
         then 7 else (kv.2 + 7 - weekdayOf base.day) % 7)) ∧
    (∀ (t : List Char) (base : DateTime),
      occursSub tomorrowKw t = false → weekdayFind t = none →
      targetDayOf t base = base.day) ∧
    (∀ (text : String) (base : DateTime) (m : TimeMatch),
      occursSub tomorrowKw (lowerStr text) = true →
      timeSearch (lowerStr text) = some m →
      normHour m ≤ 23 → m.minute.getD 0 ≤ 59 →
      parse_natural_time_minimal text base =
        (some ⟨base.day + 1, normHour m, m.minute.getD 0⟩,
         some (durationOf (lowerStr text)), "ok")) := by
  refine ⟨?_, ?_, ?_, ?_⟩
  · intro t base h
    simp [targetDayOf, h]
  · intro t base kv h hw
    simp [targetDayOf, h, hw]
  · intro t base h hw
    simp [targetDayOf, h, hw]
  · intro text base m htom hts hh hm
    have hday : targetDayOf (lowerStr text) base = base.day + 1 := by
      simp [targetDayOf, htom]
    simp [parse_natural_time_minimal, hts, hday, hh, hm]

/-- Claim C4 witness: `"tomorrow 2pm"` from day 0 parses to day 1, 14:00. -/
theorem C4_witness :
    parse_natural_time_minimal "tomorrow 2pm" ⟨0, 11, 30⟩ =
      (some ⟨0 + 1, normHour ⟨2, none, some Meridiem.pm⟩,
        (Option.getD (none : Option Nat) 0)⟩,
       some (durationOf (lowerStr "tomorrow 2pm")), "ok") :=
  C4_target_day_amended.2.2.2 "tomorrow 2pm" ⟨0, 11, 30⟩
    ⟨2, none, some Meridiem.pm⟩ (by decide) (by decide) (by decide) (by decide)

/-! ## Claim C8 -/

/-- Claim C8 (counterexample): an hours duration is **truncated** toward
zero by Python's `int()`, not rounded to the nearest minute.  `"1.51
hours"` is 90.6 minutes; the code yields 90 while rounding to the nearest
minute yields 91. -/
theorem C8_counterexample :
    durationOf (lowerStr "1.51 hours") = 90 ∧
    round (((((1 : ℕ) : ℚ)) + (((51 : ℕ) : ℚ)) / (10 : ℚ) ^ (2 : ℕ)) * 60) =
      (91 : ℤ) := by
  have h1 : minSearch (lowerStr "1.51 hours") = none := by decide
  have h2 : hrsSearch (lowerStr "1.51 hours") =
      some ((((1 : ℕ) : ℚ)) + (((51 : ℕ) : ℚ)) / (10 : ℚ) ^ (2 : ℕ)) := rfl
  have h3 : ((((1 : ℕ) : ℚ)) + (((51 : ℕ) : ℚ)) / (10 : ℚ) ^ (2 : ℕ)) * 60 =
      453 / 5 := by push_cast; norm_num
  constructor
  · unfold durationOf
    rw [h1, h2]
    simp only []
    rw [h3]
    norm_num
    decide
  · rw [h3, round_eq]
    norm_num

/-- Claim C8 (amended): the parsed duration defaults to 60 minutes; a
`"<N> min(s|utes)"` match overrides it with exactly `N`; otherwise a
`"<N(.N)> h(ours)"` match overrides it with `N` hours scaled to minutes and
**truncated** to a whole minute. -/
theorem C8_duration_amended :
    ∀ t : List Char,
      (minSearch t = none → hrsSearch t = none → durationOf t = 60) ∧
      (∀ n : Nat, minSearch t = some n → durationOf t = n) ∧
      (∀ q : ℚ, minSearch t = none → hrsSearch t = some q →
        durationOf t = (⌊q * 60⌋).toNat) := by
  intro t
  refine ⟨?_, ?_, ?_⟩
  · intro h1 h2
    simp [durationOf, h1, h2]
  · intro n h1
    simp [durationOf, h1]
  · intro q h1 h2
    simp [durationOf, h1, h2]

/-- Claim C8 witness: `"45 minutes"` parses to a 45-minute duration. -/
theorem C8_witness : durationOf (lowerStr "45 minutes") = 45 :=
  (C8_duration_amended (lowerStr "45 minutes")).2.1 45 (by decide)

/-! ## Claim C5 -/

/-- Claim C5: `detect_intent` is total into
{confirm, reschedule, time, other}, sends null and empty input to `other`,
and — confirm keywords being checked first — classifies any text containing
a confirm keyword as `confirm`, even if a time expression is also
present. -/
theorem C5_intent_priority :
    detect_intent none = "other" ∧
    detect_intent (some "") = "other" ∧
    (∀ text : Option String,
      detect_intent text = "confirm" ∨ detect_intent text = "reschedule" ∨
        detect_intent text = "time" ∨ detect_intent text = "other") ∧
    (∀ t : String, ContainsConfirmKw t → detect_intent (some t) = "confirm") := by
  refine ⟨rfl, rfl, ?_, ?_⟩
  · intro text
    simp only [detect_intent]
    split_ifs <;> simp
  · rintro t ⟨kw, pre, post, hkw, hdec, hpre, hpost⟩
    have hne : kw ≠ [] :=
      (by decide : ∀ kw ∈ confirmKws, kw ≠ []) kw hkw
    have heff : isWordOpt (effPrev none pre) = false := by
      unfold effPrev
      cases h : pre.getLast? with
      | none => rfl
      | some c => rw [h] at hpre; exact hpre
    have hsearch : yesSearch (lowerStr t) = true := by
      unfold yesSearch
      rw [hdec]
      exact kwSearchAux_of_decomp confirmKws pre none kw post hkw hne heff hpost
    unfold detect_intent
    simp [hsearch]

/-- Claim C5 witness: `"yes 2pm"` holds both a confirm keyword and a time
expression and classifies as confirm. -/
theorem C5_witness : detect_intent (some "yes 2pm") = "confirm" :=
  C5_intent_priority.2.2.2 "yes 2pm"
    ⟨('y' :: 'e' :: 's' :: []), [], (' ' :: '2' :: 'p' :: 'm' :: []),
     by decide, by decide, by decide, by decide⟩

/-! ## Claim C6 -/

/-- Claim C6: an inbound body with no `TIME_RE` token is not an error:
the parser reports `no_time_found` with null start and duration, the
handler still classifies and returns the intent with `ok`, no appointment
row is created or updated, and no start is reported. -/
theorem C6_no_time_token (now : DateTime) (s : State) (frm body : String)
    (h : timeSearch (lowerStr body) = none) :
    parse_natural_time_minimal body now = (none, none, "no_time_found") ∧
    (simulate_sms now s frm body).1.appointments = s.appointments ∧
    (simulate_sms now s frm body).2.ok = true ∧
    (simulate_sms now s frm body).2.intent = detect_intent (some body) ∧
    (simulate_sms now s frm body).2.scheduled_for = none := by
  have hp : parse_natural_time_minimal body now = (none, none, "no_time_found") := by
    simp [parse_natural_time_minimal, h]
  refine ⟨hp, ?_, ?_, ?_, ?_⟩ <;>
  · simp only [simulate_sms, hp]
    cases find_patient_by_phone
        (log_message s "in" body frm "" (detect_intent (some body)) "simulate"
          "simulate-in") frm <;>
      split_ifs <;> simp [log_message]

/-- Claim C6 witness: body `"hello"` has no time token; from an empty
store nothing is scheduled and the intent is still returned. -/
theorem C6_witness :
    parse_natural_time_minimal "hello" ⟨0, 9, 0⟩ =
      (none, none, "no_time_found") ∧
    (simulate_sms ⟨0, 9, 0⟩ State.empty "+15551234" "hello").1.appointments =
      State.empty.appointments ∧
    (simulate_sms ⟨0, 9, 0⟩ State.empty "+15551234" "hello").2.ok = true ∧
    (simulate_sms ⟨0, 9, 0⟩ State.empty "+15551234" "hello").2.intent =
      detect_intent (some "hello") ∧
    (simulate_sms ⟨0, 9, 0⟩ State.empty "+15551234" "hello").2.scheduled_for =
      none :=
  C6_no_time_token ⟨0, 9, 0⟩ State.empty "+15551234" "hello" (by decide)

/-! ## Claim C7 -/

/-- Claim C7: rows lacking the coordinate pair are exactly the ones
excluded from reordering consideration, and with fewer than two
coordinate-bearing rows (so in particular for `[]`, a singleton, or a list
with no coordinates at all) `optimize_route` returns its input unchanged. -/
theorem C7_few_coords_identity (dist : Row → Row → ℚ) (appts : List Row) :
    ((appts.filter (fun a => hasCoords a)).length < 2 →
      optimize_route dist appts = some appts) ∧
    (∀ a ∈ appts,
      (hasCoords a = false ↔ (a.lat = none ∨ a.lon = none)) ∧
      (hasCoords a = false ↔ a ∉ appts.filter (fun x => hasCoords x))) := by
  constructor
  · intro h
    simp only [optimize_route]
    rw [if_pos h]
  · intro a ha
    constructor
    · unfold hasCoords
      cases a.lat <;> cases a.lon <;> simp
    · simp [List.mem_filter, ha]

/-- Claim C7 witness: two coordinate-less rows come back unchanged, in
order. -/
theorem C7_witness :
    optimize_route (fun _ _ => (0 : ℚ))
      [⟨1, 1, "t", 540, none, none⟩, ⟨2, 2, "t", 480, none, none⟩] =
      some [⟨1, 1, "t", 540, none, none⟩, ⟨2, 2, "t", 480, none, none⟩] :=
  (C7_few_coords_identity (fun _ _ => (0 : ℚ))
    [⟨1, 1, "t", 540, none, none⟩, ⟨2, 2, "t", 480, none, none⟩]).1
    (by decide)

/-! ## Claim C9 -/

/-- Claim C9: the day view read and the optimize endpoint have no
persistence side effects — the resulting store (messages, patients and
appointments alike) is the input store; the optimizer only derives an
ordering from a snapshot. -/
theorem C9_reads_pure (s : State) (day : Nat) (ther : Option String)
    (dist : Row → Row → ℚ) :
    (schedule_list s day ther).1 = s ∧
    (schedule_optimize dist s day ther).1 = s :=
  ⟨rfl, rfl⟩

/-! ## Claim C10 -/

/-- Claim C10: a bare 1-or-2-digit number with no colon group and no
meridiem is accepted as a time token: absent confirm or reschedule
keywords the classifier answers `time`, and (for values up to 23) the
minimal parser returns `ok` taking the number as the 24-hour hour with
minute 0 on the computed target day — hour 0 included, as `"0:30"`
shows. -/
theorem C10_bare_number_accepted :
    (∀ (t : String) (n : Nat),
      timeSearch (lowerStr t) = some ⟨n, none, none⟩ →
      yesSearch (lowerStr t) = false → reschSearch (lowerStr t) = false →
      detect_intent (some t) = "time") ∧
    (∀ (t : String) (base : DateTime) (n : Nat),
      timeSearch (lowerStr t) = some ⟨n, none, none⟩ → n ≤ 23 →
      parse_natural_time_minimal t base =
        (some ⟨targetDayOf (lowerStr t) base, n, 0⟩,
         some (durationOf (lowerStr t)), "ok")) ∧
    detect_intent (some "I have 3 cats") = "time" ∧
    parse_natural_time_minimal "I have 3 cats" ⟨0, 0, 0⟩ =
      (some ⟨0, 3, 0⟩, some 60, "ok") ∧
    parse_natural_time_minimal "0:30" ⟨0, 0, 0⟩ =
      (some ⟨0, 0, 30⟩, some 60, "ok") := by
  refine ⟨?_, ?_, by decide, by decide, by decide⟩
  · intro t n hts hyes hresch
    simp [detect_intent, hyes, hresch, hts]
  · intro t base n hts hn
    have hnorm : normHour ⟨n, none, none⟩ = n := by simp [normHour]
    simp [parse_natural_time_minimal, hts, hnorm, hn]

/-- Claim C10 witness: `"I have 3 cats"` classifies as `time`. -/
theorem C10_witness : detect_intent (some "I have 3 cats") = "time" :=
  C10_bare_number_accepted.1 "I have 3 cats" 3 (by decide) (by decide)
    (by decide)

end HomeHealth
